import Mathlib

/-!
Verification of the `UniformMatroid` component of the
`fair_submodular_matroid` library (header `uniform_matroid.h`).

The repository ships only the class declaration; every method body is
modelled here from the specification's description of the uniform
(cardinality) matroid.  Elements are C++ `int`s, modelled as `Int`; the
`std::set<int>` member `current_set_` is modelled as a strictly
increasing `List Int` (an ordered container of unique elements, exactly
the shape a `std::set<int>` presents to iteration), with insertion and
erasure preserving that shape.
-/

/-- Modelled from the spec: the state of `UniformMatroid` — the private
members `current_set_` (a `std::set<int>`, here a strictly increasing
list of `Int`) and the immutable cardinality bound `k_` fixed at
construction (body of `uniform_matroid.cc` not in the sources). -/
structure UniformMatroid where
  current_set : List Int
  k : Int
deriving DecidableEq

namespace UniformMatroid

/-- Ordered insertion into a strictly increasing list, as
`std::set<int>::insert`: keeps order, never duplicates an element. -/
def setInsert (e : Int) : List Int → List Int
  | [] => [e]
  | x :: xs =>
      if e < x then e :: x :: xs
      else if e = x then x :: xs
      else x :: setInsert e xs

/-- Erasure from the element list, as `std::set<int>::erase`: drops the
element when present, leaves the rest untouched. -/
def setErase (e : Int) (l : List Int) : List Int :=
  l.filter (fun x => !decide (x = e))

/-- Modelled from the spec: the constructor `UniformMatroid(int k)` —
the instance "starts in the empty-set state" with bound `k`. -/
def init (k : Int) : UniformMatroid := ⟨[], k⟩

/-- Modelled from the spec: `Reset()` — "clears the current set to empty". -/
def Reset (m : UniformMatroid) : UniformMatroid := { m with current_set := [] }

/-- Modelled from the spec: `InCurrent(element)` — "membership test
against current set". -/
def InCurrent (m : UniformMatroid) (element : Int) : Bool :=
  decide (element ∈ m.current_set)

/-- Modelled from the spec: `GetCurrent()` — "returns a snapshot of the
current set's members (ascending order for the uniform implementation)". -/
def GetCurrent (m : UniformMatroid) : List Int :=
  m.current_set

/-- Modelled from the spec: `CanAdd(element)` — "true iff `element` is
not already present AND current size < k". -/
def CanAdd (m : UniformMatroid) (element : Int) : Bool :=
  !(m.InCurrent element) && decide ((m.current_set.length : Int) < m.k)

/-- Modelled from the spec: `CanSwap(element, swap)` — "in this
constraint family `CanSwap` returns true whenever `element` is not
already in the set, or equals `swap`". -/
def CanSwap (m : UniformMatroid) (element s : Int) : Bool :=
  !(m.InCurrent element) || decide (element = s)

/-- Modelled from the spec: `GetAllSwaps(element)` — every current
member that could legally be replaced by `element`: for an element not
already present the full current set in ascending order (each member is
a valid swap partner), and the empty sequence when `element` is already
present (no genuine exchange introduces it then). -/
def GetAllSwaps (m : UniformMatroid) (element : Int) : List Int :=
  if m.InCurrent element then [] else m.GetCurrent

/-- Modelled from the spec: `Add(element)` — "inserts `element` into the
current set"; per the design notes the reference shape does not silently
reject infeasible additions, so the insertion is unconditional. -/
def Add (m : UniformMatroid) (element : Int) : UniformMatroid :=
  { m with current_set := setInsert element m.current_set }

/-- Modelled from the spec: `Remove(element)` — "removes `element` from
the current set if present; removing an absent element is a no-op". -/
def Remove (m : UniformMatroid) (element : Int) : UniformMatroid :=
  { m with current_set := setErase element m.current_set }

/-- Modelled from the spec: `IsFeasible(elements)` — "count of distinct
elements in the collection ≤ k", independent of the current set. -/
def IsFeasible (m : UniformMatroid) (elements : List Int) : Bool :=
  decide ((elements.dedup.length : Int) ≤ m.k)

/-- Modelled from the spec: `CurrentIsFeasible()` — the current set
satisfies the cardinality constraint `size ≤ k`. -/
def CurrentIsFeasible (m : UniformMatroid) : Bool :=
  decide ((m.current_set.length : Int) ≤ m.k)

/-- Modelled from the spec: `Clone()` — "deep, independent copy: same
constraint parameters, same current set contents". -/
def Clone (m : UniformMatroid) : UniformMatroid :=
  ⟨m.current_set, m.k⟩

/-- The mutating operations of the interface, used to model the call
sequences issued by an external optimizer. -/
inductive Op where
  | add : Int → Op
  | remove : Int → Op
  | reset : Op
deriving DecidableEq

/-- Apply one mutating call to a matroid instance. -/
def applyOp (m : UniformMatroid) : Op → UniformMatroid
  | .add e => m.Add e
  | .remove e => m.Remove e
  | .reset => m.Reset

/-- Apply a sequence of mutating calls from left to right. -/
def applyOps (m : UniformMatroid) (ops : List Op) : UniformMatroid :=
  ops.foldl applyOp m

/-- A call trace is legal when every `Add` was certified by `CanAdd` in
the state where it was issued (the precondition discipline of the spec);
`Remove` and `Reset` are always allowed. -/
def Legal : UniformMatroid → List Op → Prop
  | _, [] => True
  | m, op :: ops =>
      (match op with
       | .add e => m.CanAdd e = true
       | .remove _ => True
       | .reset => True) ∧ Legal (m.applyOp op) ops

/-- A world of two matroid objects (an original and its clone); a
targeted call names the object it mutates (`true` = second object). -/
def applyTargeted (w : UniformMatroid × UniformMatroid) (t : Bool × Op) :
    UniformMatroid × UniformMatroid :=
  if t.1 then (w.1, w.2.applyOp t.2) else (w.1.applyOp t.2, w.2)

/-- Apply a sequence of targeted calls to a two-object world. -/
def applyTargetedOps (w : UniformMatroid × UniformMatroid)
    (ts : List (Bool × Op)) : UniformMatroid × UniformMatroid :=
  ts.foldl applyTargeted w

/-- Well-formedness of a state: the element list is strictly increasing
(the representation invariant of `std::set<int>`). -/
def WF (m : UniformMatroid) : Prop :=
  m.current_set.Sorted (· < ·)

instance (m : UniformMatroid) : Decidable m.WF :=
  inferInstanceAs (Decidable (m.current_set.Sorted (· < ·)))

/-! ### Supporting lemmas about the ordered-set operations -/

theorem mem_setInsert (a e : Int) (l : List Int) :
    a ∈ setInsert e l ↔ a = e ∨ a ∈ l := by
  induction l with
  | nil => simp [setInsert]
  | cons x xs ih =>
      by_cases h1 : e < x
      · simp [setInsert, h1]
      · by_cases h2 : e = x
        · subst h2
          rw [setInsert, if_neg h1, if_pos rfl]
          simp only [List.mem_cons]
          tauto
        · simp only [setInsert, if_neg h1, if_neg h2, List.mem_cons, ih]
          tauto

theorem sorted_setInsert (e : Int) {l : List Int} (hl : l.Sorted (· < ·)) :
    (setInsert e l).Sorted (· < ·) := by
  induction l with
  | nil => simp [setInsert]
  | cons x xs ih =>
      rw [List.sorted_cons] at hl
      obtain ⟨hx, hxs⟩ := hl
      by_cases h1 : e < x
      · simp only [setInsert, if_pos h1, List.sorted_cons]
        refine ⟨?_, hx, hxs⟩
        intro b hb
        rcases List.mem_cons.mp hb with rfl | hb
        · exact h1
        · exact lt_trans h1 (hx b hb)
      · by_cases h2 : e = x
        · simp only [setInsert, if_neg h1, if_pos h2]
          exact List.sorted_cons.mpr ⟨hx, hxs⟩
        · simp only [setInsert, if_neg h1, if_neg h2, List.sorted_cons]
          refine ⟨?_, ih hxs⟩
          intro b hb
          rcases (mem_setInsert b e xs).mp hb with rfl | hb
          · exact lt_of_le_of_ne (not_lt.mp h1) (Ne.symm h2)
          · exact hx b hb

theorem length_setInsert_of_not_mem (e : Int) {l : List Int} (h : e ∉ l) :
    (setInsert e l).length = l.length + 1 := by
  induction l with
  | nil => rfl
  | cons x xs ih =>
      rw [List.mem_cons, not_or] at h
      by_cases h1 : e < x
      · simp [setInsert, h1]
      · simp [setInsert, h1, h.1, ih h.2]

theorem setInsert_of_mem (e : Int) {l : List Int} (hl : l.Sorted (· < ·))
    (h : e ∈ l) : setInsert e l = l := by
  induction l with
  | nil => cases h
  | cons x xs ih =>
      rw [List.sorted_cons] at hl
      rcases List.mem_cons.mp h with rfl | hmem
      · simp [setInsert]
      · have hxe : x < e := hl.1 e hmem
        have h1 : ¬e < x := not_lt.mpr (le_of_lt hxe)
        have h2 : e ≠ x := ne_of_gt hxe
        rw [setInsert, if_neg h1, if_neg h2, ih hl.2 hmem]

theorem mem_setErase (a e : Int) (l : List Int) :
    a ∈ setErase e l ↔ a ∈ l ∧ a ≠ e := by
  simp [setErase, List.mem_filter]

theorem setErase_of_not_mem (e : Int) {l : List Int} (h : e ∉ l) :
    setErase e l = l := by
  rw [setErase, List.filter_eq_self]
  intro a ha
  simp only [Bool.not_eq_true', decide_eq_false_iff_not]
  rintro rfl
  exact h ha

theorem sorted_setErase (e : Int) {l : List Int} (hl : l.Sorted (· < ·)) :
    (setErase e l).Sorted (· < ·) :=
  List.Pairwise.filter _ hl

theorem length_setErase_le (e : Int) (l : List Int) :
    (setErase e l).length ≤ l.length :=
  List.length_filter_le _ l

theorem canAdd_eq (m : UniformMatroid) (e : Int) :
    m.CanAdd e = true ↔
      e ∉ m.current_set ∧ (m.current_set.length : Int) < m.k := by
  simp [CanAdd, InCurrent]

/-! ### The representation invariant along any call sequence -/

theorem wf_init (k : Int) : (init k).WF := List.sorted_nil

theorem wf_applyOp {m : UniformMatroid} (h : m.WF) (op : Op) :
    (m.applyOp op).WF := by
  cases op with
  | add e => exact sorted_setInsert e h
  | remove e => exact sorted_setErase e h
  | reset => exact List.sorted_nil

theorem wf_applyOps {m : UniformMatroid} (h : m.WF) (ops : List Op) :
    (m.applyOps ops).WF := by
  induction ops generalizing m with
  | nil => exact h
  | cons op ops ih => exact ih (wf_applyOp h op)

theorem legal_cons {m : UniformMatroid} {op : Op} {ops : List Op} :
    Legal m (op :: ops) ↔
      (match op with
       | .add e => m.CanAdd e = true
       | .remove _ => True
       | .reset => True) ∧ Legal (m.applyOp op) ops :=
  Iff.rfl

theorem k_applyOp (m : UniformMatroid) (op : Op) : (m.applyOp op).k = m.k := by
  cases op <;> rfl

theorem legal_inv (p : List Op) :
    ∀ (m : UniformMatroid) (q : List Op), 0 ≤ m.k →
      (m.current_set.length : Int) ≤ m.k → Legal m (p ++ q) →
      ((m.applyOps p).current_set.length : Int) ≤ m.k ∧
        (m.applyOps p).k = m.k := by
  induction p with
  | nil =>
      intro m q _ hlen _
      exact ⟨hlen, rfl⟩
  | cons op p ih =>
      intro m q hk hlen hleg
      rw [List.cons_append, legal_cons] at hleg
      obtain ⟨hop, hrest⟩ := hleg
      have hstep : ((m.applyOp op).current_set.length : Int) ≤ m.k := by
        cases op with
        | add e =>
            have h := (canAdd_eq m e).mp hop
            show ((setInsert e m.current_set).length : Int) ≤ m.k
            rw [length_setInsert_of_not_mem e h.1]
            push_cast
            omega
        | remove e =>
            show ((setErase e m.current_set).length : Int) ≤ m.k
            calc ((setErase e m.current_set).length : Int)
                ≤ (m.current_set.length : Int) := by
                  exact_mod_cast length_setErase_le e m.current_set
              _ ≤ m.k := hlen
        | reset => exact hk
      have hk2 : (m.applyOp op).k = m.k := k_applyOp m op
      have hrec := ih (m.applyOp op) q (by rw [hk2]; exact hk)
        (by rw [hk2]; exact hstep) hrest
      constructor
      · show (((m.applyOp op).applyOps p).current_set.length : Int) ≤ m.k
        rw [← hk2]
        exact hrec.1
      · show ((m.applyOp op).applyOps p).k = m.k
        rw [hrec.2, hk2]

theorem applyTargetedOps_fst {ts : List (Bool × Op)} :
    ∀ w : UniformMatroid × UniformMatroid, (∀ t ∈ ts, t.1 = true) →
      (applyTargetedOps w ts).1 = w.1 := by
  induction ts with
  | nil => intro w _; rfl
  | cons t ts ih =>
      intro w h
      have ht := h t (List.mem_cons_self t ts)
      show (applyTargetedOps (applyTargeted w t) ts).1 = w.1
      rw [ih _ (fun t' ht' => h t' (List.mem_cons_of_mem _ ht'))]
      simp [applyTargeted, ht]

theorem applyTargetedOps_snd {ts : List (Bool × Op)} :
    ∀ w : UniformMatroid × UniformMatroid, (∀ t ∈ ts, t.1 = false) →
      (applyTargetedOps w ts).2 = w.2 := by
  induction ts with
  | nil => intro w _; rfl
  | cons t ts ih =>
      intro w h
      have ht := h t (List.mem_cons_self t ts)
      show (applyTargetedOps (applyTargeted w t) ts).2 = w.2
      rw [ih _ (fun t' ht' => h t' (List.mem_cons_of_mem _ ht'))]
      simp [applyTargeted, ht]

/-! ### The claims -/

/-- Claim C1: for the uniform matroid with bound `k`, `CanAdd(element)`
returns true if and only if `element` is not already in the current set
and the current set's size is strictly less than `k` (being a `const`
query, the call is modelled as a pure function of the state and so
leaves the current set unchanged by construction). -/
theorem canAdd_correct (m : UniformMatroid) (element : Int) :
    m.CanAdd element = true ↔
      element ∉ m.current_set ∧ (m.current_set.length : Int) < m.k :=
  canAdd_eq m element

/-- Claim C2: for every `k ≥ 0` and every call sequence in which each
`Add` was certified by `CanAdd` in the state where it was issued
(interleaved with arbitrary `Remove` and `Reset` calls), after every
step `CurrentIsFeasible()` returns true and `GetCurrent()` has at most
`k` elements. -/
theorem legal_trace_always_feasible (k : Int) (ops p q : List Op)
    (hk : 0 ≤ k) (hsplit : ops = p ++ q) (hleg : Legal (init k) ops) :
    ((init k).applyOps p).CurrentIsFeasible = true ∧
      (((init k).applyOps p).GetCurrent.length : Int) ≤ k := by
  subst hsplit
  have h := legal_inv p (init k) q hk (by simpa [init] using hk) hleg
  refine ⟨?_, h.1⟩
  simp only [CurrentIsFeasible, decide_eq_true_eq]
  rw [h.2]
  exact h.1

/-- Witness for claim C2 at `k = 1` and the trace
`[Add 5, Remove 5, Add 6]`, inspected after its second step. -/
theorem legal_trace_always_feasible_witness :
    ((init 1).applyOps [Op.add 5, Op.remove 5]).CurrentIsFeasible = true ∧
      (((init 1).applyOps [Op.add 5, Op.remove 5]).GetCurrent.length : Int)
        ≤ 1 :=
  legal_trace_always_feasible 1 [Op.add 5, Op.remove 5, Op.add 6]
    [Op.add 5, Op.remove 5] [Op.add 6] (by decide) rfl
    ⟨by decide, trivial, by decide, trivial⟩

/-- Claim C3: for the uniform matroid, in every state and for all
integers `element` and `swap`, `CanSwap(element, swap)` returns true if
and only if `element` is not in the current set or `element` equals
`swap` (a `const` query, modelled as a pure function of the state, so
the current set is unchanged by construction). -/
theorem canSwap_correct (m : UniformMatroid) (element sw : Int) :
    m.CanSwap element sw = true ↔
      element ∉ m.current_set ∨ element = sw := by
  simp [CanSwap, InCurrent]

/-- Claim C4: `GetAllSwaps(element)` returns exactly the current-set
members that can legally be exchanged for `element`: for an `element`
not in the current set it returns the entire current set in ascending
order, and the empty sequence when `element` is already present (and
hence not addable). -/
theorem getAllSwaps_correct (m : UniformMatroid) (element : Int)
    (hwf : m.WF) :
    (∀ x, x ∈ m.GetAllSwaps element ↔
        x ∈ m.current_set ∧ element ∉ m.current_set) ∧
      List.Sorted (· ≤ ·) (m.GetAllSwaps element) ∧
      (element ∉ m.current_set → m.GetAllSwaps element = m.GetCurrent) ∧
      (element ∈ m.current_set → m.GetAllSwaps element = []) := by
  have hp : List.Pairwise (· < ·) m.current_set := hwf
  by_cases h : element ∈ m.current_set
  · refine ⟨?_, ?_, ?_, ?_⟩
    · intro x; simp [GetAllSwaps, InCurrent, h]
    · simp [GetAllSwaps, InCurrent, h]
    · intro hc; exact absurd h hc
    · intro _; simp [GetAllSwaps, InCurrent, h]
  · refine ⟨?_, ?_, ?_, ?_⟩
    · intro x; simp [GetAllSwaps, InCurrent, h, GetCurrent]
    · simpa [GetAllSwaps, InCurrent, h, GetCurrent] using
        hp.imp (fun hab => le_of_lt hab)
    · intro _; simp [GetAllSwaps, InCurrent, h]
    · intro hc; exact absurd hc h

/-- Witness for claim C4 in the state `{5, 7}` with `k = 2`: the swap
partners for the absent element `9` are the full current set `[5, 7]`,
and for the present element `5` there are none. -/
theorem getAllSwaps_correct_witness :
    (UniformMatroid.mk [5, 7] 2).GetAllSwaps 9
        = (UniformMatroid.mk [5, 7] 2).GetCurrent ∧
      (UniformMatroid.mk [5, 7] 2).GetAllSwaps 5 = [] :=
  ⟨(getAllSwaps_correct ⟨[5, 7], 2⟩ 9 (by decide)).2.2.1 (by decide),
   (getAllSwaps_correct ⟨[5, 7], 2⟩ 5 (by decide)).2.2.2 (by decide)⟩

/-- Claim C5: `IsFeasible(S)` returns true if and only if the number of
distinct elements of `S` (duplicates counted once) is at most `k`, and
the answer is independent of the current set; being a `const` query it
is modelled as a pure function of the state and cannot change it. -/
theorem isFeasible_distinct_count (m : UniformMatroid) (S : List Int) :
    (m.IsFeasible S = true ↔ (S.toFinset.card : Int) ≤ m.k) ∧
      ∀ m' : UniformMatroid, m'.k = m.k → m'.IsFeasible S = m.IsFeasible S := by
  constructor
  · simp [IsFeasible, List.card_toFinset]
  · intro m' h
    simp [IsFeasible, h]

/-- Witness for claim C5 on the duplicate-bearing collection
`[1, 1, 2, 2, 3]` against two states with the same bound `k = 2` but
different current sets. -/
theorem isFeasible_distinct_count_witness :
    ((UniformMatroid.mk [] 2).IsFeasible [1, 1, 2, 2, 3] = true ↔
        (([1, 1, 2, 2, 3] : List Int).toFinset.card : Int) ≤ 2) ∧
      (UniformMatroid.mk [5] 2).IsFeasible [1, 1, 2, 2, 3]
        = (UniformMatroid.mk [] 2).IsFeasible [1, 1, 2, 2, 3] :=
  ⟨(isFeasible_distinct_count ⟨[], 2⟩ [1, 1, 2, 2, 3]).1,
   (isFeasible_distinct_count ⟨[], 2⟩ [1, 1, 2, 2, 3]).2 ⟨[5], 2⟩ rfl⟩

/-- Claim C6: `Clone()` yields a matroid with the same bound whose
`GetCurrent()` equals the original's at clone time, and thereafter any
sequence of `Add`/`Remove`/`Reset` calls directed at the clone leaves
the original's `GetCurrent()` unchanged, and vice versa (the two-object
world applies each targeted call to exactly one of the two instances). -/
theorem clone_independent (m : UniformMatroid) (ts : List (Bool × Op)) :
    ((m.Clone).GetCurrent = m.GetCurrent ∧ (m.Clone).k = m.k) ∧
      ((∀ t ∈ ts, t.1 = true) →
        (applyTargetedOps (m, m.Clone) ts).1.GetCurrent = m.GetCurrent) ∧
      ((∀ t ∈ ts, t.1 = false) →
        (applyTargetedOps (m, m.Clone) ts).2.GetCurrent
          = (m.Clone).GetCurrent) := by
  refine ⟨⟨rfl, rfl⟩, ?_, ?_⟩
  · intro h
    rw [applyTargetedOps_fst _ h]
  · intro h
    rw [applyTargetedOps_snd _ h]

/-- Witness for claim C6: mutating the clone of the state `{5}` by
`Add 7` then `Remove 5` leaves the original's `GetCurrent()` at `[5]`. -/
theorem clone_independent_witness :
    (applyTargetedOps (UniformMatroid.mk [5] 2, (UniformMatroid.mk [5] 2).Clone)
        [(true, Op.add 7), (true, Op.remove 5)]).1.GetCurrent
      = (UniformMatroid.mk [5] 2).GetCurrent :=
  (clone_independent ⟨[5], 2⟩ [(true, Op.add 7), (true, Op.remove 5)]).2.1
    (by decide)

/-- Claim C7: in every reachable state of the uniform matroid (any
state produced from a fresh instance by a sequence of mutating calls),
`CurrentIsFeasible()` returns the same boolean as
`IsFeasible(GetCurrent())`. -/
theorem currentIsFeasible_agrees (k : Int) (ops : List Op) :
    ((init k).applyOps ops).CurrentIsFeasible
      = ((init k).applyOps ops).IsFeasible (((init k).applyOps ops).GetCurrent) := by
  have hnd : ((init k).applyOps ops).current_set.Nodup :=
    (wf_applyOps (wf_init k) ops).nodup
  simp [CurrentIsFeasible, IsFeasible, GetCurrent,
    List.dedup_eq_self.mpr hnd]

/-- Claim C8: `Remove(element)` is total: it removes exactly `element`
when present (membership afterwards is membership before minus
`element`), and is a no-op when `element` is absent. -/
theorem remove_total (m : UniformMatroid) (element : Int) :
    (∀ x, x ∈ (m.Remove element).current_set ↔
        x ∈ m.current_set ∧ x ≠ element) ∧
      (element ∉ m.current_set → m.Remove element = m) := by
  constructor
  · intro x
    exact mem_setErase x element m.current_set
  · intro h
    have h2 : setErase element m.current_set = m.current_set :=
      setErase_of_not_mem element h
    cases m with
    | mk cs k => simpa [Remove, UniformMatroid.mk.injEq] using h2

/-- Witness for claim C8: removing the absent element `9` from the
state `{5, 7}` leaves the object unchanged. -/
theorem remove_total_witness :
    (UniformMatroid.mk [5, 7] 2).Remove 9 = UniformMatroid.mk [5, 7] 2 :=
  (remove_total ⟨[5, 7], 2⟩ 9).2 (by decide)

/-- Claim C9: if `CanAdd(e)` holds and `Add(e)` is called, `InCurrent(e)`
returns true immediately afterwards; and immediately after any
`Remove(e)` call, `InCurrent(e)` returns false. -/
theorem add_remove_inCurrent (m : UniformMatroid) (e : Int) :
    (m.CanAdd e = true → (m.Add e).InCurrent e = true) ∧
      (m.Remove e).InCurrent e = false := by
  constructor
  · intro _
    simp [Add, InCurrent, mem_setInsert]
  · simp [Remove, InCurrent, mem_setErase]

/-- Witness for claim C9: adding `5` to the empty state with `k = 1`
makes `InCurrent(5)` true. -/
theorem add_remove_inCurrent_witness :
    ((UniformMatroid.mk [] 1).Add 5).InCurrent 5 = true :=
  (add_remove_inCurrent ⟨[], 1⟩ 5).1 (by decide)

/-- Claim C10: `Add(e)` performs no precondition check and sets the
current set to its union with `{e}`: membership afterwards is
membership before plus `e`; if `e` is already present the object is
unchanged; if `e` is absent it is inserted even when the current set
already holds `k` elements, after which `CurrentIsFeasible()` returns
false. -/
theorem add_unconditional_insert (m : UniformMatroid) (e : Int)
    (hwf : m.WF) :
    (∀ x, x ∈ (m.Add e).current_set ↔ x = e ∨ x ∈ m.current_set) ∧
      (e ∈ m.current_set → m.Add e = m) ∧
      (e ∉ m.current_set →
        (m.Add e).current_set.length = m.current_set.length + 1) ∧
      (e ∉ m.current_set → (m.current_set.length : Int) = m.k →
        (m.Add e).CurrentIsFeasible = false) := by
  have hs : m.current_set.Sorted (· < ·) := hwf
  refine ⟨?_, ?_, ?_, ?_⟩
  · intro x
    exact mem_setInsert x e m.current_set
  · intro h
    have h2 : setInsert e m.current_set = m.current_set :=
      setInsert_of_mem e hs h
    cases m with
    | mk cs k => simpa [Add, UniformMatroid.mk.injEq] using h2
  · intro h
    exact length_setInsert_of_not_mem e h
  · intro h hful
    show decide (((setInsert e m.current_set).length : Int) ≤ m.k) = false
    rw [length_setInsert_of_not_mem e h]
    simp only [decide_eq_false_iff_not, not_le]
    push_cast
    omega

/-- Witness for claim C10: adding the absent element `9` to the full
state `{5, 7}` with `k = 2` makes `CurrentIsFeasible()` false. -/
theorem add_unconditional_insert_witness :
    ((UniformMatroid.mk [5, 7] 2).Add 9).CurrentIsFeasible = false :=
  (add_unconditional_insert ⟨[5, 7], 2⟩ 9 (by decide)).2.2.2 (by decide)
    (by decide)

end UniformMatroid
